import Mathlib

/-!
Verification of the outbound payload encoder of `engineioxide`
(`src/engineioxide/src/payload/encoder.rs`).

The four Rust functions `v4_encoder`, `v3_bin_packet_encoder`,
`v3_string_packet_encoder`, `v3_binary_encoder` and `v3_string_encoder`
are embedded as pure Lean functions.  The asynchronous packet queue
(`MutexGuard<Receiver<Packet>>`) is modelled by the list of packets
available at call time together with the outcome of the single blocking
`recv().await` the encoders may perform.  The packet type, its textual
conversion (`TryInto<String>`), `is_binary`, the error type and the two
separator constants are defined in other files of the repository and are
modelled from the spec.
-/

/-- Modelled from the spec: the error taxonomy of `crate::errors::Error`
relevant to the encoder: `Aborted` (queue closed during the blocking
wait) and the conversion failure of a packet's textual rendering. -/
inductive Error where
  | Aborted : Error
  | ConversionError : Error
deriving DecidableEq, Repr

/-- Modelled from the spec: the packet type `crate::packet::Packet`.
`Text` is a textual message, `Binary` the modern binary-carrying
variant, `BinaryV3` the legacy binary-carrying variant
("LegacyBinary" in the spec), and the remaining constructors are the
control packet kinds, which are always representable as text. -/
inductive Packet where
  | Text (s : String) : Packet
  | Binary (b : List Nat) : Packet
  | BinaryV3 (b : List Nat) : Packet
  | Open : Packet
  | Close : Packet
  | Ping : Packet
  | Pong : Packet
  | Upgrade : Packet
  | Noop : Packet
deriving DecidableEq, Repr

/-- Modelled from the spec: `Packet::is_binary`, true exactly on the
binary-carrying variants. -/
def Packet.is_binary : Packet → Bool
  | .Binary _ => true
  | .BinaryV3 _ => true
  | _ => false

/-- A textual conversion capability: the shape of `TryInto<String> for
Packet`, which is external to the encoder and is passed to every model
function as a parameter. -/
def Conv : Type := Packet → Except Error String

/-- Modelled from the spec: one concrete instance of the conversion
capability, used to evaluate the model on concrete inputs.  A `Text`
packet converts to its own payload (as in the spec's examples); the
binary variants and the control packets convert to fixed non-failing
strings, the convention being explicitly left open by the spec. -/
def conv0 : Conv := fun p =>
  match p with
  | .Text s => .ok s
  | .Binary _ => .ok "b"
  | .BinaryV3 _ => .ok "b"
  | _ => .ok "x"

/-- A conversion instance whose conversion fails on every non-`Text`
packet; used to exercise the error paths on concrete inputs. -/
def conv1 : Conv := fun p =>
  match p with
  | .Text s => .ok s
  | _ => .error .ConversionError

/-- A conversion instance all of whose produced strings are non-empty
(every packet-kind tag is included, as in the real protocol). -/
def conv2 : Conv := fun p =>
  match p with
  | .Text s => .ok ("4" ++ s)
  | .Binary _ => .ok "b"
  | .BinaryV3 _ => .ok "b"
  | _ => .ok "x"

/-- Modelled from the spec: the constant `PACKET_SEPARATOR_V4` of
`crate::payload` (not under `src/`), the modern record separator byte
`0x1E`. -/
def PACKET_SEPARATOR_V4 : Nat := 0x1e

/-- The v4 separator as a character (`std::char::from_u32(… as u32)`). -/
def sep4Char : Char := Char.ofNat PACKET_SEPARATOR_V4

/-- Modelled from the spec: the constant `PACKET_SEPARATOR_V3` of
`crate::payload` (not under `src/`), the configured delimiter byte of
the legacy decimal-length string framing (the colon of the
`<length>:<packet>` engine.io v3 format). -/
def PACKET_SEPARATOR_V3 : Nat := 0x3a

/-- The v3 separator as a character (`PACKET_SEPARATOR_V3 as char`). -/
def sep3Char : Char := Char.ofNat PACKET_SEPARATOR_V3

/-- The UTF-8 bytes of a string, as natural numbers: the logical model
of `String::as_bytes` / `String.toUTF8` (whose definition is
`⟨⟨a.data.flatMap utf8EncodeChar⟩⟩`). -/
def utf8Bytes (s : String) : List Nat :=
  (s.data.flatMap String.utf8EncodeChar).map UInt8.toNat

/-- The state of the per-connection outgoing queue
(`MutexGuard<Receiver<Packet>>`) as the encoder call observes it:
`available` is the ordered list of packets already queued at call time
(drained by the non-blocking `try_recv` loop), and `next` is the
outcome of the single blocking `recv().await` the encoders may then
perform: `some p` when a packet is eventually pushed, `none` when the
queue is closed without one. -/
structure Receiver where
  available : List Packet
  next : Option Packet
deriving DecidableEq, Repr

/-- The `while let Ok(packet) = rx.try_recv()` loop of `v4_encoder`:
each packet is converted (failure propagates), a separator character is
pushed first whenever the accumulated string is non-empty, then the
converted text is appended. -/
def v4_drain (conv : Conv) : List Packet → String → Except Error String
  | [], data => .ok data
  | p :: ps, data =>
    match conv p with
    | .error e => .error e
    | .ok s => v4_drain conv ps ((if data.isEmpty then data else data.push sep4Char) ++ s)

/-- `v4_encoder`: drain the queue into a string joined by
`PACKET_SEPARATOR_V4`; if the string is still empty, perform one
blocking receive (`Aborted` when the queue is closed) and append that
packet's conversion.  The Rust function finally returns the UTF-8 bytes
of this string (`data.into()`); the model returns the string itself. -/
def v4_encoder (conv : Conv) (rx : Receiver) : Except Error String :=
  match v4_drain conv rx.available "" with
  | .error e => .error e
  | .ok data =>
    if data.isEmpty then
      match rx.next with
      | none => .error .Aborted
      | some p =>
        match conv p with
        | .error e => .error e
        | .ok s => .ok (data ++ s)
    else .ok data

/-- The 8 bytes of `usize::to_be_bytes` (big-endian). -/
def usize_to_be_bytes (n : Nat) : List Nat :=
  [n / 256 ^ 7 % 256, n / 256 ^ 6 % 256, n / 256 ^ 5 % 256, n / 256 ^ 4 % 256,
   n / 256 ^ 3 % 256, n / 256 ^ 2 % 256, n / 256 % 256, n % 256]

/-- Fuelled base-2 logarithm (the fuel is only consumed structurally;
with fuel at least the number, it is the usual `log2`). -/
def log2Aux : Nat → Nat → Nat
  | 0, _ => 0
  | fuel + 1, n => if 2 ≤ n then log2Aux fuel (n / 2) + 1 else 0

/-- `usize::leading_zeros` on a 64-bit value: `64 -` the bit length. -/
def leading_zeros_u64 (n : Nat) : Nat :=
  64 - (if n = 0 then 0 else log2Aux 64 n + 1)

/-- `len.leading_zeros() / 8`, the number of leading zero bytes of the
8-byte big-endian representation. -/
def leading_zero_bytes (n : Nat) : Nat :=
  leading_zeros_u64 n / 8

/-- The length field written by `v3_bin_packet_encoder`:
`&len.to_be_bytes()[leading_zero_bytes..]`. -/
def put_len (n : Nat) : List Nat :=
  (usize_to_be_bytes n).drop (leading_zero_bytes n)

/-- `v3_bin_packet_encoder`: appends one legacy binary-payload frame to
`data`.  The `BinaryV3` variant gets the `0x01` frame (length
`bin.len() + 1`, separator `0xFF`, marker `0x04`, raw bytes); every
other packet is converted to text and gets the `0x00` frame (length =
UTF-8 byte count, separator `0xFF`, text bytes). -/
def v3_bin_packet_encoder (conv : Conv) (packet : Packet) (data : List Nat) :
    Except Error (List Nat) :=
  match packet with
  | .BinaryV3 bin =>
    .ok (data ++ [0x01] ++ put_len (bin.length + 1) ++ [0xff, 0x04] ++ bin)
  | packet =>
    match conv packet with
    | .error e => .error e
    | .ok s =>
      .ok (data ++ [0x00] ++ put_len (utf8Bytes s).length ++ [0xff] ++ utf8Bytes s)

/-- `v3_string_packet_encoder`: appends the UTF-8 bytes of
`format!("{}{}{}", packet.chars().count(), PACKET_SEPARATOR_V3 as char,
packet)` — decimal Unicode scalar-value count, separator character,
then the text itself. -/
def v3_string_packet_encoder (conv : Conv) (packet : Packet) (data : List Nat) :
    Except Error (List Nat) :=
  match conv packet with
  | .error e => .error e
  | .ok s =>
    .ok (data ++ utf8Bytes (toString s.length ++ String.singleton sep3Char ++ s))

/-- The `for packet in packet_buffer { f(packet, &mut data)? }` loops of
the legacy encoders. -/
def encode_list (f : Packet → List Nat → Except Error (List Nat)) :
    List Packet → List Nat → Except Error (List Nat)
  | [], data => .ok data
  | p :: ps, data =>
    match f p data with
    | .error e => .error e
    | .ok data2 => encode_list f ps data2

/-- `v3_binary_encoder`: buffer all currently queued packets, record
whether any is binary, then encode the whole batch with the binary
frame encoder if so and with the string frame encoder otherwise; if the
output is still empty, perform one blocking receive and encode that
packet (binary variants through the binary frame encoder). -/
def v3_binary_encoder (conv : Conv) (rx : Receiver) : Except Error (List Nat) :=
  let has_binary := rx.available.any Packet.is_binary
  match (if has_binary then encode_list (v3_bin_packet_encoder conv) rx.available []
         else encode_list (v3_string_packet_encoder conv) rx.available []) with
  | .error e => .error e
  | .ok data =>
    if data.isEmpty then
      match rx.next with
      | none => .error .Aborted
      | some p =>
        match p with
        | .BinaryV3 b => v3_bin_packet_encoder conv (.BinaryV3 b) data
        | .Binary b => v3_bin_packet_encoder conv (.Binary b) data
        | p => v3_string_packet_encoder conv p data
    else .ok data

/-- `v3_string_encoder`: encode all currently queued packets with the
string frame encoder; if the output is still empty, perform one
blocking receive and encode that packet. -/
def v3_string_encoder (conv : Conv) (rx : Receiver) : Except Error (List Nat) :=
  match encode_list (v3_string_packet_encoder conv) rx.available [] with
  | .error e => .error e
  | .ok data =>
    if data.isEmpty then
      match rx.next with
      | none => .error .Aborted
      | some p => v3_string_packet_encoder conv p data
    else .ok data

/-- Spec-side definition, following the spec's words for the modern
payload: the textual conversions joined by the single separator
character, with no separator before the first or after the last. -/
def joined : List String → String
  | [] => ""
  | [t] => t
  | t :: ts => t ++ String.singleton sep4Char ++ joined ts

/-- Spec-side definition: split a character list on a separator
character; splitting the empty list yields one empty segment. -/
def splitSep (sep : Char) : List Char → List (List Char)
  | [] => [[]]
  | c :: cs =>
    match splitSep sep cs with
    | [] => [[]]
    | seg :: rest => if c == sep then [] :: seg :: rest else (c :: seg) :: rest

/-- Fuelled helper for the minimal big-endian byte encoding. -/
def beMinAux : Nat → Nat → List Nat
  | 0, _ => []
  | fuel + 1, n => if n = 0 then [] else beMinAux fuel (n / 256) ++ [n % 256]

/-- Spec-side definition, following the spec's words for the
minimal-width length field: the big-endian bytes of the integer with
all leading zero bytes stripped (so `5` encodes as the single byte
`0x05`, and `0` as no byte at all). -/
def beMin (n : Nat) : List Nat := beMinAux n n

/-- The integer value of a big-endian byte list. -/
def beVal (l : List Nat) : Nat := l.foldl (fun a b => a * 256 + b) 0

/-- Spec-side definition, following the claim's words for decoding one
legacy binary-payload frame: read the type byte, read the big-endian
length field up to the `0xFF` separator, and take the length-many
payload bytes that follow; returns the type byte, the decoded length
and the payload. -/
def v3_bin_frame_decode (frame : List Nat) : Option (Nat × Nat × List Nat) :=
  match frame with
  | [] => none
  | t :: rest =>
    match rest.dropWhile (fun b => b != 0xff) with
    | [] => none
    | _ :: payload =>
      let lenBytes := rest.takeWhile (fun b => b != 0xff)
      if beVal lenBytes = payload.length then some (t, beVal lenBytes, payload)
      else none

/-- Convert every element of a list with a fallible function, stopping
at the first error and collecting the results in order — the shape of
the encoders' conversion loops. -/
def mapE {α β : Type} (f : α → Except Error β) : List α → Except Error (List β)
  | [] => .ok []
  | a :: l =>
    match f a with
    | .error e => .error e
    | .ok b =>
      match mapE f l with
      | .error e => .error e
      | .ok bs => .ok (b :: bs)

/-- Spec-side helper: the tail of a separator-joined string, one
separator before each element. -/
def tailJoined : List String → String
  | [] => ""
  | t :: ts => String.singleton sep4Char ++ t ++ tailJoined ts

theorem utf8EncodeChar_ne_nil (c : Char) : String.utf8EncodeChar c ≠ [] := by
  intro h
  have hlen := String.length_utf8EncodeChar c
  rw [h] at hlen
  have hpos := Char.utf8Size_pos c
  simp at hlen
  omega

theorem utf8Bytes_append (s t : String) :
    utf8Bytes (s ++ t) = utf8Bytes s ++ utf8Bytes t := by
  simp [utf8Bytes, String.data_append, List.flatMap_append]

theorem utf8Bytes_ne_nil {s : String} (h : s ≠ "") : utf8Bytes s ≠ [] := by
  have hdata : s.data ≠ [] := fun hd => h (String.ext (by simp [hd]))
  cases hs : s.data with
  | nil => exact absurd hs hdata
  | cons c cs =>
    simp [utf8Bytes, hs, utf8EncodeChar_ne_nil c]

theorem mapE_ok_length {α β : Type} {f : α → Except Error β} :
    ∀ {l : List α} {bs : List β}, mapE f l = .ok bs → bs.length = l.length := by
  intro l
  induction l with
  | nil => intro bs h; simp [mapE] at h; simp [← h]
  | cons a l ih =>
    intro bs h
    simp only [mapE] at h
    cases hfa : f a with
    | error e => rw [hfa] at h; exact absurd h (by simp)
    | ok b =>
      rw [hfa] at h
      cases hml : mapE f l with
      | error e => rw [hml] at h; exact absurd h (by simp)
      | ok bs2 =>
        rw [hml] at h
        cases h
        simp [ih hml]

theorem mapE_ok_mem {α β : Type} {f : α → Except Error β} :
    ∀ {l : List α} {bs : List β}, mapE f l = .ok bs →
      ∀ b ∈ bs, ∃ a ∈ l, f a = .ok b := by
  intro l
  induction l with
  | nil => intro bs h; simp [mapE] at h; simp [h]
  | cons a l ih =>
    intro bs h
    simp only [mapE] at h
    cases hfa : f a with
    | error e => rw [hfa] at h; exact absurd h (by simp)
    | ok b =>
      rw [hfa] at h
      cases hml : mapE f l with
      | error e => rw [hml] at h; exact absurd h (by simp)
      | ok bs2 =>
        rw [hml] at h
        cases h
        intro x hx
        rcases List.mem_cons.1 hx with hx | hx
        · exact ⟨a, by simp, by rw [hfa, hx]⟩
        · obtain ⟨a2, ha2, hfa2⟩ := ih hml x hx
          exact ⟨a2, by simp [ha2], hfa2⟩

theorem v3_bin_packet_encoder_shift (cv : Conv) (p : Packet) (data : List Nat) :
    v3_bin_packet_encoder cv p data =
      match v3_bin_packet_encoder cv p [] with
      | .error e => .error e
      | .ok fr => .ok (data ++ fr) := by
  cases p <;> simp only [v3_bin_packet_encoder] <;> (try split) <;> simp

theorem v3_string_packet_encoder_shift (cv : Conv) (p : Packet) (data : List Nat) :
    v3_string_packet_encoder cv p data =
      match v3_string_packet_encoder cv p [] with
      | .error e => .error e
      | .ok fr => .ok (data ++ fr) := by
  simp only [v3_string_packet_encoder]
  cases cv p <;> simp

theorem encode_list_eq (f : Packet → List Nat → Except Error (List Nat))
    (hf : ∀ p d, f p d =
      match f p [] with
      | .error e => .error e
      | .ok fr => .ok (d ++ fr)) :
    ∀ (ps : List Packet) (data : List Nat),
      encode_list f ps data =
        match mapE (fun p => f p []) ps with
        | .error e => .error e
        | .ok frames => .ok (data ++ frames.flatten) := by
  intro ps
  induction ps with
  | nil => intro data; simp [encode_list, mapE]
  | cons p ps ih =>
    intro data
    simp only [encode_list, mapE]
    rw [hf p data]
    cases f p [] with
    | error e => rfl
    | ok fr =>
      simp only []
      rw [ih (data ++ fr)]
      cases mapE (fun q => f q []) ps with
      | error e => rfl
      | ok frames => simp [List.append_assoc]

theorem beMinAux_congr : ∀ (f g n : Nat), n ≤ f → n ≤ g → beMinAux f n = beMinAux g n := by
  intro f
  induction f with
  | zero =>
    intro g n hf hg
    have hn : n = 0 := by omega
    subst hn
    cases g <;> simp [beMinAux]
  | succ f ih =>
    intro g n hf hg
    by_cases hn : n = 0
    · subst hn
      cases g <;> simp [beMinAux]
    · have hg1 : g ≠ 0 := by omega
      obtain ⟨g2, rfl⟩ : ∃ g2, g = g2 + 1 := ⟨g - 1, by omega⟩
      simp only [beMinAux, if_neg hn]
      have hdiv : n / 256 < n := Nat.div_lt_self (by omega) (by norm_num)
      rw [ih g2 (n / 256) (by omega) (by omega)]

theorem beMin_eq (n : Nat) : beMin n = if n = 0 then [] else beMin (n / 256) ++ [n % 256] := by
  by_cases hn : n = 0
  · simp [hn, beMin, beMinAux]
  · obtain ⟨m, rfl⟩ : ∃ m, n = m + 1 := ⟨n - 1, by omega⟩
    rw [if_neg hn]
    show beMinAux (m + 1) (m + 1) = _
    simp only [beMinAux, if_neg hn]
    have hdiv : (m + 1) / 256 < m + 1 := Nat.div_lt_self (by omega) (by norm_num)
    rw [beMinAux_congr m ((m + 1) / 256) ((m + 1) / 256) (by omega) (by omega)]
    rfl

theorem beMin_ne_nil {n : Nat} (h : n ≠ 0) : beMin n ≠ [] := by
  rw [beMin_eq, if_neg h]
  simp

theorem beVal_append_singleton (l : List Nat) (b : Nat) :
    beVal (l ++ [b]) = beVal l * 256 + b := by
  simp [beVal, List.foldl_append]

theorem beVal_beMin (n : Nat) : beVal (beMin n) = n := by
  induction n using Nat.strong_induction_on with
  | _ n ih =>
    rw [beMin_eq]
    by_cases hn : n = 0
    · simp [hn, beVal]
    · rw [if_neg hn, beVal_append_singleton,
        ih (n / 256) (Nat.div_lt_self (by omega) (by norm_num))]
      omega

theorem log2Aux_char : ∀ (f n : Nat), 0 < n → n < 2 ^ f →
    2 ^ log2Aux f n ≤ n ∧ n < 2 ^ (log2Aux f n + 1) := by
  intro f
  induction f with
  | zero => intro n h1 h2; simp at h2; omega
  | succ f ih =>
    intro n h1 h2
    simp only [log2Aux]
    by_cases h : 2 ≤ n
    · rw [if_pos h]
      have hp : 2 ^ (f + 1) = 2 * 2 ^ f := by ring
      have hd1 : 0 < n / 2 := by omega
      have hd2 : n / 2 < 2 ^ f := by omega
      obtain ⟨ha, hb⟩ := ih (n / 2) hd1 hd2
      constructor
      · have he : 2 ^ (log2Aux f (n / 2) + 1) = 2 * 2 ^ log2Aux f (n / 2) := by ring
        omega
      · have he : 2 ^ (log2Aux f (n / 2) + 1 + 1) = 2 * 2 ^ (log2Aux f (n / 2) + 1) := by
          ring
        omega
    · rw [if_neg h]
      simp only [pow_zero, pow_one]
      omega

theorem pow2_between_unique {n a b : Nat} (ha1 : 2 ^ a ≤ n) (ha2 : n < 2 ^ (a + 1))
    (hb1 : 2 ^ b ≤ n) (hb2 : n < 2 ^ (b + 1)) : a = b := by
  by_contra hne
  rcases Nat.lt_or_ge a b with h | h
  · have : 2 ^ (a + 1) ≤ 2 ^ b := Nat.pow_le_pow_right (by norm_num) (by omega)
    omega
  · have hba : b < a := by omega
    have : 2 ^ (b + 1) ≤ 2 ^ a := Nat.pow_le_pow_right (by norm_num) (by omega)
    omega

theorem put_len_eq_beMin : ∀ n, n < 2 ^ 64 → put_len n = beMin n := by
  intro n
  induction n using Nat.strong_induction_on with
  | _ n ih =>
    intro hn
    by_cases h0 : n = 0
    · subst h0; rfl
    · by_cases hs : n < 256
      · have hlog : log2Aux 64 n ≤ 7 := by
          obtain ⟨ha, hb⟩ := log2Aux_char 64 n (by omega) hn
          by_contra hc
          have h8 : 8 ≤ log2Aux 64 n := by omega
          have hle : (2 : Nat) ^ 8 ≤ 2 ^ log2Aux 64 n :=
            Nat.pow_le_pow_right (by norm_num) h8
          have h256 : (2 : Nat) ^ 8 = 256 := by norm_num
          omega
        have hL : leading_zero_bytes n = 7 := by
          simp only [leading_zero_bytes, leading_zeros_u64, if_neg h0]
          omega
        rw [put_len, hL]
        have hdrop : List.drop 7 (usize_to_be_bytes n) = [n % 256] := rfl
        rw [hdrop, beMin_eq, if_neg h0]
        have hq : n / 256 = 0 := by omega
        rw [hq]
        have hb0 : beMin 0 = [] := rfl
        rw [hb0]
        have hmod : n % 256 = n := by omega
        simp [hmod]
      · have hge : 256 ≤ n := by omega
        have hdivlt : n / 256 < n := Nat.div_lt_self (by omega) (by norm_num)
        have hdiv64 : n / 256 < 2 ^ 64 := by omega
        have hd0 : n / 256 ≠ 0 := by omega
        have hstep : log2Aux 64 n = log2Aux 64 (n / 256) + 8 := by
          obtain ⟨ha, hb⟩ := log2Aux_char 64 (n / 256) (by omega) hdiv64
          obtain ⟨hc, hd⟩ := log2Aux_char 64 n (by omega) hn
          apply pow2_between_unique hc hd
          · have he : (2 : Nat) ^ (log2Aux 64 (n / 256) + 8) =
                2 ^ log2Aux 64 (n / 256) * 256 := by ring
            have hf := Nat.mul_le_mul_right 256 ha
            omega
          · have he : (2 : Nat) ^ (log2Aux 64 (n / 256) + 8 + 1) =
                2 ^ (log2Aux 64 (n / 256) + 1) * 256 := by ring
            have hf := Nat.mul_le_mul_right 256
              (show n / 256 + 1 ≤ 2 ^ (log2Aux 64 (n / 256) + 1) by omega)
            omega
        have hchar := log2Aux_char 64 (n / 256) (by omega) hdiv64
        have hk55 : log2Aux 64 (n / 256) ≤ 55 := by
          by_contra hc
          have h56 : 56 ≤ log2Aux 64 (n / 256) := by omega
          have hle : (2 : Nat) ^ 56 ≤ 2 ^ log2Aux 64 (n / 256) :=
            Nat.pow_le_pow_right (by norm_num) h56
          have he1 : (2 : Nat) ^ 64 = 2 ^ 56 * 256 := by norm_num
          omega
        have hdd7 : n / 256 / 256 ^ 7 = 0 := by
          rw [Nat.div_div_eq_div_mul]
          apply Nat.div_eq_of_lt
          have : (256 : Nat) * 256 ^ 7 = 2 ^ 64 := by norm_num
          omega
        have hdd : ∀ i : Nat, n / 256 / 256 ^ i = n / 256 ^ (i + 1) := by
          intro i
          rw [Nat.div_div_eq_div_mul]
          congr 1
          ring
        have hdd1 : n / 256 / 256 = n / 256 ^ 2 := by
          rw [Nat.div_div_eq_div_mul]
          norm_num
        have hbytes : usize_to_be_bytes (n / 256) =
            0 :: [n / 256 ^ 7 % 256, n / 256 ^ 6 % 256, n / 256 ^ 5 % 256,
                  n / 256 ^ 4 % 256, n / 256 ^ 3 % 256, n / 256 ^ 2 % 256,
                  n / 256 % 256] := by
          simp only [usize_to_be_bytes, hdd7, hdd 6, hdd 5, hdd 4, hdd 3, hdd 2, hdd1]
          try norm_num
        have hL' : leading_zero_bytes (n / 256) = leading_zero_bytes n + 1 := by
          simp only [leading_zero_bytes, leading_zeros_u64, if_neg h0, if_neg hd0, hstep]
          omega
        have hL6 : leading_zero_bytes n ≤ 6 := by
          simp only [leading_zero_bytes, leading_zeros_u64, if_neg h0, hstep]
          omega
        have hput : put_len (n / 256) = beMin (n / 256) := ih (n / 256) hdivlt hdiv64
        rw [beMin_eq, if_neg h0, ← hput]
        simp only [put_len, hbytes, hL', List.drop_succ_cons]
        obtain ⟨L, hLdef⟩ : ∃ L, leading_zero_bytes n = L := ⟨_, rfl⟩
        rw [hLdef] at hL6 ⊢
        interval_cases L <;> rfl

theorem v4_drain_err (cv : Conv) :
    ∀ (ps : List Packet) (data : String) (e : Error),
      mapE cv ps = .error e → v4_drain cv ps data = .error e := by
  intro ps
  induction ps with
  | nil => intro data e h; simp [mapE] at h
  | cons p ps ih =>
    intro data e h
    simp only [mapE] at h
    simp only [v4_drain]
    cases hc : cv p with
    | error e2 =>
      rw [hc] at h
      simp at h
      simp [h]
    | ok s =>
      rw [hc] at h
      cases hm : mapE cv ps with
      | error e2 =>
        rw [hm] at h
        simp at h
        exact ih _ _ (by rw [hm, h])
      | ok ts => rw [hm] at h; simp at h

theorem v4_drain_ok (cv : Conv) :
    ∀ (ps : List Packet) (ts : List String) (data : String),
      mapE cv ps = .ok ts → data ≠ "" →
      v4_drain cv ps data = .ok (data ++ tailJoined ts) := by
  intro ps
  induction ps with
  | nil =>
    intro ts data h hd
    simp [mapE] at h
    subst h
    simp [v4_drain, tailJoined]
  | cons p ps ih =>
    intro ts data h hd
    simp only [mapE] at h
    cases hc : cv p with
    | error e => rw [hc] at h; simp at h
    | ok s =>
      rw [hc] at h
      cases hm : mapE cv ps with
      | error e => rw [hm] at h; simp at h
      | ok ts2 =>
        rw [hm] at h
        simp only [Except.ok.injEq] at h
        subst h
        simp only [v4_drain, hc]
        have hne : ¬ data.isEmpty = true := by
          simp [String.isEmpty_iff, hd]
        rw [if_neg hne]
        rw [ih ts2 (data.push sep4Char ++ s) hm
          (by
            intro hcontra
            have := String.data_eq_of_eq hcontra
            simp [String.data_push] at this)]
        congr 1
        apply String.ext
        simp [tailJoined, String.singleton]

theorem v4_drain_all_empty (cv : Conv) :
    ∀ (ps : List Packet), (∀ p ∈ ps, cv p = .ok "") →
      v4_drain cv ps "" = .ok "" := by
  intro ps
  induction ps with
  | nil => intro h; rfl
  | cons p ps ih =>
    intro h
    simp only [v4_drain, h p (by simp)]
    exact ih (fun q hq => h q (by simp [hq]))

theorem splitSep_ne_nil (sep : Char) : ∀ l, splitSep sep l ≠ [] := by
  intro l
  induction l with
  | nil => simp [splitSep]
  | cons c cs ih =>
    simp only [splitSep]
    cases hsp : splitSep sep cs with
    | nil => exact absurd hsp ih
    | cons seg rest => by_cases hc : c == sep <;> simp [hc]

theorem splitSep_not_mem (sep : Char) :
    ∀ (l : List Char), sep ∉ l → splitSep sep l = [l] := by
  intro l
  induction l with
  | nil => intro h; rfl
  | cons c cs ih =>
    intro h
    have h1 : c ≠ sep := fun hc => h (by simp [hc])
    have h2 : sep ∉ cs := fun hm => h (by simp [hm])
    simp only [splitSep, ih h2]
    have hc : (c == sep) = false := by simp [h1]
    simp [hc]

theorem splitSep_append (sep : Char) :
    ∀ (l r : List Char), sep ∉ l →
      splitSep sep (l ++ sep :: r) = l :: splitSep sep r := by
  intro l
  induction l with
  | nil =>
    intro r h
    simp only [List.nil_append, splitSep]
    cases hsp : splitSep sep r with
    | nil => exact absurd hsp (splitSep_ne_nil sep r)
    | cons seg rest => simp
  | cons c cs ih =>
    intro r h
    have h1 : c ≠ sep := fun hc => h (by simp [hc])
    have h2 : sep ∉ cs := fun hm => h (by simp [hm])
    simp only [List.cons_append, splitSep, List.append_eq]
    rw [ih r h2]
    have hc : (c == sep) = false := by simp [h1]
    simp [hc]

theorem splitSep_joined :
    ∀ (ts : List String), ts ≠ [] → (∀ t ∈ ts, sep4Char ∉ t.data) →
      splitSep sep4Char (joined ts).data = ts.map String.data := by
  intro ts
  induction ts with
  | nil => intro h; exact absurd rfl h
  | cons t ts ih =>
    intro _ hsep
    cases ts with
    | nil =>
      simp only [joined, List.map_cons, List.map_nil]
      exact splitSep_not_mem _ _ (hsep t (by simp))
    | cons t2 ts2 =>
      simp only [joined]
      rw [String.data_append, String.data_append]
      have hsing : (String.singleton sep4Char).data = [sep4Char] := rfl
      rw [hsing, List.append_assoc]
      rw [show ([sep4Char] ++ (joined (t2 :: ts2)).data) =
        sep4Char :: (joined (t2 :: ts2)).data from rfl]
      rw [splitSep_append _ _ _ (hsep t (by simp))]
      rw [ih (by simp) (fun u hu => hsep u (by simp [hu]))]
      rfl

theorem takeWhile_until_ff :
    ∀ (l r : List Nat), (∀ b ∈ l, b ≠ 255) →
      (l ++ 255 :: r).takeWhile (fun b => b != 255) = l ∧
      (l ++ 255 :: r).dropWhile (fun b => b != 255) = 255 :: r := by
  intro l
  induction l with
  | nil => intro r h; constructor <;> simp
  | cons b l ih =>
    intro r h
    have hb : b ≠ 255 := h b (by simp)
    have hbne : (b != 255) = true := by simp [hb]
    obtain ⟨h1, h2⟩ := ih r (fun x hx => h x (by simp [hx]))
    constructor
    · simp only [List.cons_append, List.takeWhile_cons, hbne, if_true]
      simp [h1]
    · simp only [List.cons_append, List.dropWhile_cons, hbne, if_true]
      simp [h2]

theorem v3_bin_packet_encoder_not_v3 (cv : Conv) (p : Packet) (data : List Nat)
    (hb : ∀ b, p ≠ .BinaryV3 b) :
    v3_bin_packet_encoder cv p data =
      match cv p with
      | .error e => .error e
      | .ok s =>
        .ok (data ++ [0x00] ++ put_len (utf8Bytes s).length ++ [0xff] ++ utf8Bytes s) := by
  cases p <;> first | rfl | exact absurd rfl (hb _)

theorem v3_bin_frame_head (cv : Conv) (p : Packet) (fr : List Nat)
    (h : v3_bin_packet_encoder cv p [] = .ok fr) :
    fr ≠ [] ∧ (fr.head? = some 0 ∨ fr.head? = some 1) := by
  by_cases hb : ∃ b, p = .BinaryV3 b
  · obtain ⟨b, rfl⟩ := hb
    simp only [v3_bin_packet_encoder, List.nil_append, Except.ok.injEq] at h
    subst h
    simp
  · push_neg at hb
    rw [v3_bin_packet_encoder_not_v3 cv p [] hb] at h
    cases hcv : cv p with
    | error e => rw [hcv] at h; simp at h
    | ok s =>
      rw [hcv] at h
      simp only [List.nil_append, Except.ok.injEq] at h
      subst h
      simp

theorem v3_string_frame_ne_nil (cv : Conv) (p : Packet) (fr : List Nat)
    (h : v3_string_packet_encoder cv p [] = .ok fr) : fr ≠ [] := by
  simp only [v3_string_packet_encoder] at h
  cases hcv : cv p with
  | error e => rw [hcv] at h; simp at h
  | ok s =>
    rw [hcv] at h
    simp only [List.nil_append, Except.ok.injEq] at h
    subst h
    apply utf8Bytes_ne_nil
    intro hcontra
    have hd := String.data_eq_of_eq hcontra
    simp [String.data_append, String.singleton] at hd

theorem flatten_ne_nil {frames : List (List Nat)} (h1 : frames ≠ [])
    (h2 : ∀ f ∈ frames, f ≠ []) : frames.flatten ≠ [] := by
  cases frames with
  | nil => exact absurd rfl h1
  | cons f rest =>
    simp only [List.flatten_cons]
    intro hc
    rcases List.append_eq_nil.1 hc with ⟨hf, _⟩
    exact h2 f (by simp) hf

/-- C6: for every encoder call (`v4_encoder`, `v3_binary_encoder`,
`v3_string_encoder`) on a queue that is empty at call time and closed
without any packet ever being pushed, the blocking wait terminates and
the call returns `Err(Aborted)`; it does not return a payload. -/
theorem C6_aborted_on_closed_empty_queue (cv : Conv) :
    v4_encoder cv ⟨[], none⟩ = .error .Aborted ∧
    v3_binary_encoder cv ⟨[], none⟩ = .error .Aborted ∧
    v3_string_encoder cv ⟨[], none⟩ = .error .Aborted :=
  ⟨rfl, rfl, rfl⟩

/-- C4: for every packet whose textual conversion succeeds, the legacy
string frame encoder appends exactly the decimal ASCII digits of the
Unicode scalar-value count (number of chars, not bytes) of the
converted text, then the single separator byte `PACKET_SEPARATOR_V3`,
then the text's raw UTF-8 bytes. -/
theorem C4_v3_string_packet_encoder_frame (cv : Conv) (p : Packet) (s : String)
    (data : List Nat) (h : cv p = .ok s) :
    v3_string_packet_encoder cv p data =
      .ok (data ++ utf8Bytes (toString s.length) ++ [PACKET_SEPARATOR_V3] ++
        utf8Bytes s) := by
  simp only [v3_string_packet_encoder, h]
  congr 1
  rw [utf8Bytes_append, utf8Bytes_append]
  have hsep : utf8Bytes (String.singleton sep3Char) = [PACKET_SEPARATOR_V3] := rfl
  rw [hsep]
  simp [List.append_assoc]

/-- Witness for C4 at a concrete input: the packet `Text "héllo"` (5
chars, 6 UTF-8 bytes) framed onto the buffer `[7]`. -/
theorem C4_witness :
    v3_string_packet_encoder conv0 (.Text "héllo") [7] =
      .ok ([7] ++ utf8Bytes (toString ("héllo" : String).length) ++
        [PACKET_SEPARATOR_V3] ++ utf8Bytes "héllo") :=
  C4_v3_string_packet_encoder_frame conv0 (.Text "héllo") "héllo" [7] rfl

/-- C3 (amended): the legacy binary frame encoder appends, for the
legacy binary variant `BinaryV3`, the type byte `0x01`, the
minimal-width big-endian encoding of (raw byte length + 1), the
separator `0xFF`, the marker `0x04` and the raw bytes; for every other
packet (conversion succeeding) it appends the type byte `0x00`, the
minimal-width big-endian encoding of the UTF-8 byte length of the
converted text, `0xFF` and the text's UTF-8 bytes with no marker; the
minimal-width encoding of an integer is its big-endian bytes with all
leading zero bytes stripped (`beMin`, e.g. `beMin 5 = [5]`). -/
theorem C3_v3_bin_packet_encoder_frame (cv : Conv) (data : List Nat) :
    (∀ bin : List Nat, bin.length + 1 < 2 ^ 64 →
      v3_bin_packet_encoder cv (.BinaryV3 bin) data =
        .ok (data ++ [0x01] ++ beMin (bin.length + 1) ++ [0xff, 0x04] ++ bin)) ∧
    (∀ (p : Packet) (s : String), (∀ b, p ≠ .BinaryV3 b) → cv p = .ok s →
      (utf8Bytes s).length < 2 ^ 64 →
      v3_bin_packet_encoder cv p data =
        .ok (data ++ [0x00] ++ beMin (utf8Bytes s).length ++ [0xff] ++ utf8Bytes s)) ∧
    beMin 5 = [5] := by
  refine ⟨?_, ?_, rfl⟩
  · intro bin hlen
    simp only [v3_bin_packet_encoder, put_len_eq_beMin _ hlen]
  · intro p s hb hcv hlen
    rw [v3_bin_packet_encoder_not_v3 cv p data hb, hcv]
    simp only [put_len_eq_beMin _ hlen]

/-- Counterexample to C3 as stated: the packet `Binary [5]` carries raw
binary payload, yet the appended frame is a `0x00` string-type frame of
its textual conversion (here under the model conversion `conv0`), not
the claimed `0x01` binary frame. -/
theorem C3_counterexample :
    v3_bin_packet_encoder conv0 (.Binary [5]) [] = .ok [0x00, 1, 0xff, 98] ∧
    [0x00, 1, 0xff, 98] ≠ [0x01] ++ beMin ([5].length + 1) ++ [0xff, 0x04] ++ [5] :=
  ⟨rfl, by decide⟩

/-- Witness for C3 (amended) at concrete inputs: a `BinaryV3 [1, 2]`
frame and a `Text "hi"` frame appended to the empty buffer. -/
theorem C3_witness :
    v3_bin_packet_encoder conv0 (.BinaryV3 [1, 2]) [] =
      .ok ([] ++ [0x01] ++ beMin ([1, 2].length + 1) ++ [0xff, 0x04] ++ [1, 2]) ∧
    v3_bin_packet_encoder conv0 (.Text "hi") [] =
      .ok ([] ++ [0x00] ++ beMin (utf8Bytes "hi").length ++ [0xff] ++ utf8Bytes "hi") :=
  ⟨(C3_v3_bin_packet_encoder_frame conv0 []).1 [1, 2] (by norm_num),
   (C3_v3_bin_packet_encoder_frame conv0 []).2.1 (.Text "hi") "hi"
     (by intro b h; cases h) rfl (by decide)⟩

/-- C5 (amended): for the queue `[Text "hi", BinaryV3 [1, 2]]` (the
legacy binary variant) available at call time, under any conversion
sending `Text "hi"` to `"hi"`, the legacy dispatcher returns `Ok` with
exactly the bytes `00 02 FF 68 69 01 03 FF 04 01 02`. -/
theorem C5_dispatcher_example (cv : Conv) (next : Option Packet)
    (h : cv (.Text "hi") = .ok "hi") :
    v3_binary_encoder cv ⟨[.Text "hi", .BinaryV3 [1, 2]], next⟩ =
      .ok [0x00, 0x02, 0xff, 0x68, 0x69, 0x01, 0x03, 0xff, 0x04, 0x01, 0x02] := by
  simp only [v3_binary_encoder, encode_list, v3_bin_packet_encoder, h]
  rfl

/-- Counterexample to C5 as stated: with the modern `Binary` variant
named by the claim, the second frame opens with the `0x00` string type
byte (under the model conversion `conv0` the output is
`00 02 FF 68 69 00 01 FF 62`), not the claimed
`00 02 FF 68 69 01 03 FF 04 01 02`. -/
theorem C5_counterexample :
    v3_binary_encoder conv0 ⟨[.Text "hi", .Binary [1, 2]], none⟩ =
      .ok [0x00, 0x02, 0xff, 0x68, 0x69, 0x00, 0x01, 0xff, 0x62] ∧
    [0x00, 0x02, 0xff, 0x68, 0x69, 0x00, 0x01, 0xff, 0x62] ≠
      [0x00, 0x02, 0xff, 0x68, 0x69, 0x01, 0x03, 0xff, 0x04, 0x01, 0x02] :=
  ⟨rfl, by decide⟩

/-- Witness for C5 (amended) with the concrete model conversion. -/
theorem C5_witness :
    v3_binary_encoder conv0 ⟨[.Text "hi", .BinaryV3 [1, 2]], none⟩ =
      .ok [0x00, 0x02, 0xff, 0x68, 0x69, 0x01, 0x03, 0xff, 0x04, 0x01, 0x02] :=
  C5_dispatcher_example conv0 none rfl

/-- C9 (amended): decoding the single frame produced by the legacy
binary frame encoder — reading the type byte, the big-endian length up
to the `0xFF` separator, then the payload — recovers the original data,
provided no byte of the minimal-width length field equals `0xFF`: for a
`0x01` frame the payload is the `0x04` marker followed by the raw
bytes, and for a `0x00` frame the payload is the UTF-8 bytes of the
converted text. -/
theorem C9_roundtrip (cv : Conv) :
    (∀ bin : List Nat, bin.length + 1 < 2 ^ 64 →
      (∀ b ∈ beMin (bin.length + 1), b ≠ 0xff) →
      (v3_bin_packet_encoder cv (.BinaryV3 bin) []).map v3_bin_frame_decode =
        .ok (some (1, bin.length + 1, 0x04 :: bin))) ∧
    (∀ (p : Packet) (s : String), (∀ b, p ≠ .BinaryV3 b) → cv p = .ok s →
      (utf8Bytes s).length < 2 ^ 64 →
      (∀ b ∈ beMin (utf8Bytes s).length, b ≠ 0xff) →
      (v3_bin_packet_encoder cv p []).map v3_bin_frame_decode =
        .ok (some (0, (utf8Bytes s).length, utf8Bytes s))) := by
  constructor
  · intro bin hlen hff
    simp only [v3_bin_packet_encoder, put_len_eq_beMin _ hlen, Except.map]
    congr 1
    have hfr : ([] : List Nat) ++ [1] ++ beMin (bin.length + 1) ++ [0xff, 0x04] ++ bin =
        1 :: (beMin (bin.length + 1) ++ 255 :: (4 :: bin)) := by simp
    rw [hfr]
    obtain ⟨ht, hdw⟩ := takeWhile_until_ff (beMin (bin.length + 1)) (4 :: bin) hff
    simp only [v3_bin_frame_decode, hdw, ht, beVal_beMin, List.length_cons]
    simp
  · intro p s hb hcv hlen hff
    rw [v3_bin_packet_encoder_not_v3 cv p [] hb, hcv]
    simp only [put_len_eq_beMin _ hlen, Except.map]
    congr 1
    have hfr : ([] : List Nat) ++ [0] ++ beMin (utf8Bytes s).length ++ [0xff] ++
        utf8Bytes s =
        0 :: (beMin (utf8Bytes s).length ++ 255 :: utf8Bytes s) := by simp
    rw [hfr]
    obtain ⟨ht, hdw⟩ :=
      takeWhile_until_ff (beMin (utf8Bytes s).length) (utf8Bytes s) hff
    simp only [v3_bin_frame_decode, hdw, ht, beVal_beMin]
    simp

set_option maxRecDepth 8000 in
/-- Counterexample to C9 as stated: for a 254-byte raw payload the
length field is the single byte `0xFF` (254 + 1 = 255), which collides
with the separator; scanning to the first `0xFF` misparses the frame,
and the decode fails instead of recovering the raw bytes. -/
theorem C9_counterexample :
    v3_bin_packet_encoder conv0 (.BinaryV3 (List.replicate 254 7)) [] =
      .ok (1 :: 255 :: 255 :: 4 :: List.replicate 254 7) ∧
    v3_bin_frame_decode (1 :: 255 :: 255 :: 4 :: List.replicate 254 7) = none :=
  ⟨rfl, rfl⟩

/-- Witness for C9 (amended) at concrete inputs: a `BinaryV3 [1, 2]`
frame and a `Text "hi"` frame both decode back to their data. -/
theorem C9_witness :
    (v3_bin_packet_encoder conv0 (.BinaryV3 [1, 2]) []).map v3_bin_frame_decode =
      .ok (some (1, [1, 2].length + 1, 0x04 :: [1, 2])) ∧
    (v3_bin_packet_encoder conv0 (.Text "hi") []).map v3_bin_frame_decode =
      .ok (some (0, (utf8Bytes "hi").length, utf8Bytes "hi")) :=
  ⟨(C9_roundtrip conv0).1 [1, 2] (by norm_num) (by decide),
   (C9_roundtrip conv0).2 (.Text "hi") "hi" (by intro b h; cases h) rfl
     (by decide) (by decide)⟩

/-- C2: if the batch drained by the legacy dispatcher contains at least
one `is_binary` packet, every packet in it — including non-binary ones
— is encoded with the binary frame encoder, so a successful output is
exactly the concatenation of the per-packet binary frames, one frame
per packet in enqueue order, each opening with the type byte `0x00` or
`0x01`; if the (non-empty) batch contains no binary packet, every
packet is encoded with the string frame encoder. -/
theorem C2_v3_binary_encoder_dispatch (cv : Conv) (ps : List Packet)
    (next : Option Packet) :
    (ps.any Packet.is_binary = true →
      ∀ frames, mapE (fun p => v3_bin_packet_encoder cv p []) ps = .ok frames →
        v3_binary_encoder cv ⟨ps, next⟩ = .ok frames.flatten ∧
        frames.length = ps.length ∧
        ∀ f ∈ frames, f.head? = some 0 ∨ f.head? = some 1) ∧
    (ps.any Packet.is_binary = false → ps ≠ [] →
      ∀ frames, mapE (fun p => v3_string_packet_encoder cv p []) ps = .ok frames →
        v3_binary_encoder cv ⟨ps, next⟩ = .ok frames.flatten ∧
        frames.length = ps.length) := by
  constructor
  · intro hbin frames hframes
    have hps : ps ≠ [] := by
      intro h
      subst h
      simp at hbin
    have hfne : frames ≠ [] := by
      intro h
      rw [h] at hframes
      have hl := mapE_ok_length hframes
      simp at hl
      exact hps (List.length_eq_zero.mp hl.symm)
    have hne : ∀ f ∈ frames, f ≠ [] := by
      intro f hf
      obtain ⟨p, hp, hfp⟩ := mapE_ok_mem hframes f hf
      exact (v3_bin_frame_head cv p f hfp).1
    have hflat : frames.flatten ≠ [] := flatten_ne_nil hfne hne
    refine ⟨?_, mapE_ok_length hframes, ?_⟩
    · have henc := encode_list_eq (v3_bin_packet_encoder cv)
        (v3_bin_packet_encoder_shift cv) ps []
      rw [hframes] at henc
      simp only [v3_binary_encoder, hbin, if_true, henc, List.nil_append]
      cases hflat2 : frames.flatten with
      | nil => exact absurd hflat2 hflat
      | cons x xs => simp
    · intro f hf
      obtain ⟨p, hp, hfp⟩ := mapE_ok_mem hframes f hf
      exact (v3_bin_frame_head cv p f hfp).2
  · intro hbin hps frames hframes
    have hfne : frames ≠ [] := by
      intro h
      rw [h] at hframes
      have hl := mapE_ok_length hframes
      simp at hl
      exact hps (List.length_eq_zero.mp hl.symm)
    have hne : ∀ f ∈ frames, f ≠ [] := by
      intro f hf
      obtain ⟨p, hp, hfp⟩ := mapE_ok_mem hframes f hf
      exact v3_string_frame_ne_nil cv p f hfp
    have hflat : frames.flatten ≠ [] := flatten_ne_nil hfne hne
    refine ⟨?_, mapE_ok_length hframes⟩
    have henc := encode_list_eq (v3_string_packet_encoder cv)
      (v3_string_packet_encoder_shift cv) ps []
    rw [hframes] at henc
    simp only [v3_binary_encoder, hbin, if_false, henc, List.nil_append,
      Bool.false_eq_true]
    cases hflat2 : frames.flatten with
    | nil => exact absurd hflat2 hflat
    | cons x xs => simp

/-- Witness for C2 at concrete inputs: a mixed batch goes entirely
through the binary frame encoder, and a text-only batch entirely
through the string frame encoder. -/
theorem C2_witness :
    (v3_binary_encoder conv0 ⟨[.Text "hi", .BinaryV3 [1, 2]], none⟩ =
        .ok ([[0, 2, 255, 104, 105], [1, 3, 255, 4, 1, 2]] : List (List Nat)).flatten ∧
      ([[0, 2, 255, 104, 105], [1, 3, 255, 4, 1, 2]] : List (List Nat)).length =
        ([.Text "hi", .BinaryV3 [1, 2]] : List Packet).length ∧
      ∀ f ∈ ([[0, 2, 255, 104, 105], [1, 3, 255, 4, 1, 2]] : List (List Nat)),
        f.head? = some 0 ∨ f.head? = some 1) ∧
    (v3_binary_encoder conv0 ⟨[.Text "ab"], none⟩ =
        .ok ([[50, 58, 97, 98]] : List (List Nat)).flatten ∧
      ([[50, 58, 97, 98]] : List (List Nat)).length =
        ([.Text "ab"] : List Packet).length) :=
  ⟨(C2_v3_binary_encoder_dispatch conv0 [.Text "hi", .BinaryV3 [1, 2]] none).1
      rfl [[0, 2, 255, 104, 105], [1, 3, 255, 4, 1, 2]] rfl,
   (C2_v3_binary_encoder_dispatch conv0 [.Text "ab"] none).2
      rfl (by simp) [[50, 58, 97, 98]] rfl⟩

/-- C7: a failing textual conversion aborts the whole encode call with
that conversion error and no payload (the model's `Except.error` result
carries no byte buffer, matching the Rust `Err` return that drops the
partially filled local buffer): when the conversions attempted for the
drained batch fail, each encoder returns exactly that error, and
likewise on the blocking path. -/
theorem C7_conversion_error_atomic (cv : Conv) (ps : List Packet)
    (next : Option Packet) (e : Error) :
    (mapE cv ps = .error e → v4_encoder cv ⟨ps, next⟩ = .error e) ∧
    (mapE (fun p => v3_string_packet_encoder cv p []) ps = .error e →
      v3_string_encoder cv ⟨ps, next⟩ = .error e) ∧
    (ps.any Packet.is_binary = true →
      mapE (fun p => v3_bin_packet_encoder cv p []) ps = .error e →
      v3_binary_encoder cv ⟨ps, next⟩ = .error e) ∧
    (ps.any Packet.is_binary = false →
      mapE (fun p => v3_string_packet_encoder cv p []) ps = .error e →
      v3_binary_encoder cv ⟨ps, next⟩ = .error e) ∧
    (∀ p, cv p = .error e → v4_encoder cv ⟨[], some p⟩ = .error e) ∧
    (∀ p, cv p = .error e → v3_string_encoder cv ⟨[], some p⟩ = .error e) := by
  refine ⟨?_, ?_, ?_, ?_, ?_, ?_⟩
  · intro h
    simp only [v4_encoder, v4_drain_err cv ps "" e h]
  · intro h
    have henc := encode_list_eq (v3_string_packet_encoder cv)
      (v3_string_packet_encoder_shift cv) ps []
    rw [h] at henc
    simp only [v3_string_encoder, henc]
  · intro hbin h
    have henc := encode_list_eq (v3_bin_packet_encoder cv)
      (v3_bin_packet_encoder_shift cv) ps []
    rw [h] at henc
    simp only [v3_binary_encoder, hbin, if_true, henc]
  · intro hbin h
    have henc := encode_list_eq (v3_string_packet_encoder cv)
      (v3_string_packet_encoder_shift cv) ps []
    rw [h] at henc
    simp only [v3_binary_encoder, hbin, Bool.false_eq_true, if_false, henc]
  · intro p h
    simp [v4_encoder, v4_drain, h, show ("" : String).isEmpty = true from rfl]
  · intro p h
    simp [v3_string_encoder, encode_list, v3_string_packet_encoder, h]

/-- Witness for C7 with the conversion `conv1`, which fails on every
non-`Text` packet: batches whose second packet fails to convert, and
blocking-path packets that fail to convert, all abort with the
conversion error. -/
theorem C7_witness :
    v4_encoder conv1 ⟨[.Text "x", .Binary [1]], none⟩ = .error .ConversionError ∧
    v3_string_encoder conv1 ⟨[.Text "x", .Binary [1]], none⟩ =
      .error .ConversionError ∧
    v3_binary_encoder conv1 ⟨[.Text "x", .Binary [1]], none⟩ =
      .error .ConversionError ∧
    v3_binary_encoder conv1 ⟨[.Text "x", .Open], none⟩ = .error .ConversionError ∧
    v4_encoder conv1 ⟨[], some .Open⟩ = .error .ConversionError ∧
    v3_string_encoder conv1 ⟨[], some .Open⟩ = .error .ConversionError :=
  ⟨(C7_conversion_error_atomic conv1 [.Text "x", .Binary [1]] none
      .ConversionError).1 rfl,
   (C7_conversion_error_atomic conv1 [.Text "x", .Binary [1]] none
      .ConversionError).2.1 rfl,
   (C7_conversion_error_atomic conv1 [.Text "x", .Binary [1]] none
      .ConversionError).2.2.1 rfl rfl,
   (C7_conversion_error_atomic conv1 [.Text "x", .Open] none
      .ConversionError).2.2.2.1 rfl rfl,
   (C7_conversion_error_atomic conv1 [] none .ConversionError).2.2.2.2.1
      .Open rfl,
   (C7_conversion_error_atomic conv1 [] none .ConversionError).2.2.2.2.2
      .Open rfl⟩

theorem joined_eq_tailJoined : ∀ (t : String) (ts : List String),
    joined (t :: ts) = t ++ tailJoined ts := by
  intro t ts
  induction ts generalizing t with
  | nil =>
    simp [joined, tailJoined]
  | cons u us ih =>
    simp only [joined, tailJoined]
    rw [ih u]
    apply String.ext
    simp [String.singleton]

/-- Counterexample to C8 as stated: with the queue empty at call time
and a `Text ""` packet pushed during the blocking wait (the model
conversion `conv0` renders it as the empty string), the modern encoder
returns `Ok` with an empty payload even though the connection is alive
(the queue was not closed). -/
theorem C8_counterexample :
    v4_encoder conv0 ⟨[], some (.Text "")⟩ = .ok "" := rfl

/-- C8 (amended): when the queue had zero packets available at call
time, the modern encoder blocks and returns exactly the one received
packet's conversion; an `Ok` result of the modern encoder is non-empty
provided every packet conversion produces non-empty text (without that
proviso an empty conversion yields an empty `Ok` payload); the legacy
encoders never return an empty `Ok` payload, unconditionally. -/
theorem C8_nonempty_payload (cv : Conv) :
    (∀ p s, cv p = .ok s → v4_encoder cv ⟨[], some p⟩ = .ok s) ∧
    (∀ rx out, (∀ p s, cv p = .ok s → s ≠ "") →
      v4_encoder cv rx = .ok out → out ≠ "") ∧
    (∀ rx out, v3_string_encoder cv rx = .ok out → out ≠ []) ∧
    (∀ rx out, v3_binary_encoder cv rx = .ok out → out ≠ []) := by
  refine ⟨?_, ?_, ?_, ?_⟩
  · intro p s h
    simp [v4_encoder, v4_drain, h, show ("" : String).isEmpty = true from rfl]
  · intro rx out hne hok hc
    subst hc
    simp only [v4_encoder] at hok
    cases hdr : v4_drain cv rx.available "" with
    | error e => rw [hdr] at hok; simp at hok
    | ok data =>
      rw [hdr] at hok
      dsimp only at hok
      by_cases hempty : data.isEmpty = true
      · rw [if_pos hempty] at hok
        cases hnx : rx.next with
        | none => rw [hnx] at hok; simp at hok
        | some p =>
          rw [hnx] at hok
          dsimp only at hok
          cases hcv : cv p with
          | error e => rw [hcv] at hok; simp at hok
          | ok s =>
            rw [hcv] at hok
            simp only [Except.ok.injEq] at hok
            have hdata : data = "" := (String.isEmpty_iff data).mp hempty
            subst hdata
            rw [String.empty_append] at hok
            exact hne p s hcv hok
      · rw [if_neg hempty] at hok
        simp only [Except.ok.injEq] at hok
        subst hok
        exact hempty ((String.isEmpty_iff "").mpr rfl)
  · intro rx out hok hc
    subst hc
    simp only [v3_string_encoder] at hok
    cases henc : encode_list (v3_string_packet_encoder cv) rx.available [] with
    | error e => rw [henc] at hok; simp at hok
    | ok data =>
      rw [henc] at hok
      dsimp only at hok
      by_cases hempty : data.isEmpty = true
      · rw [if_pos hempty] at hok
        cases hnx : rx.next with
        | none => rw [hnx] at hok; simp at hok
        | some p =>
          rw [hnx] at hok
          dsimp only at hok
          have hdata : data = [] := List.isEmpty_iff.mp hempty
          subst hdata
          exact v3_string_frame_ne_nil cv p [] hok rfl
      · rw [if_neg hempty] at hok
        simp only [Except.ok.injEq] at hok
        subst hok
        simp at hempty
  · intro rx out hok hc
    subst hc
    simp only [v3_binary_encoder] at hok
    cases henc : (if rx.available.any Packet.is_binary then
        encode_list (v3_bin_packet_encoder cv) rx.available []
      else encode_list (v3_string_packet_encoder cv) rx.available []) with
    | error e => rw [henc] at hok; simp at hok
    | ok data =>
      rw [henc] at hok
      dsimp only at hok
      by_cases hempty : data.isEmpty = true
      · rw [if_pos hempty] at hok
        cases hnx : rx.next with
        | none => rw [hnx] at hok; simp at hok
        | some p =>
          rw [hnx] at hok
          dsimp only at hok
          have hdata : data = [] := List.isEmpty_iff.mp hempty
          subst hdata
          cases p <;>
            first
              | exact (v3_bin_frame_head cv _ [] hok).1 rfl
              | exact v3_string_frame_ne_nil cv _ [] hok rfl
      · rw [if_neg hempty] at hok
        simp only [Except.ok.injEq] at hok
        subst hok
        simp at hempty

/-- Witness for C8 (amended) at concrete inputs, with the conversion
`conv2` all of whose outputs are non-empty. -/
theorem C8_witness :
    v4_encoder conv2 ⟨[], some (.Text "yo")⟩ = .ok ("4" ++ "yo") ∧
    ("4" ++ "a" : String) ≠ "" ∧
    ([50, 58, 52, 97] : List Nat) ≠ [] ∧
    ([0, 1, 255, 98] : List Nat) ≠ [] :=
  ⟨(C8_nonempty_payload conv2).1 (.Text "yo") ("4" ++ "yo") rfl,
   (C8_nonempty_payload conv2).2.1 ⟨[.Text "a"], none⟩ ("4" ++ "a")
     (by
       intro p s h hc
       subst hc
       cases p <;> simp [conv2, String.ext_iff] at h)
     rfl,
   (C8_nonempty_payload conv2).2.2.1 ⟨[.Text "a"], none⟩ [50, 58, 52, 97] rfl,
   (C8_nonempty_payload conv2).2.2.2 ⟨[.Binary [1]], none⟩ [0, 1, 255, 98] rfl⟩

/-- C10 (amended): the modern encoder's decision to block is taken on
whether the accumulated output string is empty, not on whether packets
were drained: a drained batch all of whose conversions are empty is
consumed, contributes no bytes and no separators, and the call behaves
exactly as if the queue had been empty at call time (in particular it
still blocks); a leading packet converting to the empty string leaves
the output empty, so the separator before the next packet is omitted;
but once the output is non-empty, a packet converting to the empty
string still causes a separator to be pushed, so the separator before
the following packet is not omitted (consecutive separators appear
instead). -/
theorem C10_empty_conversion_blocking (cv : Conv) :
    (∀ ps next, (∀ p ∈ ps, cv p = .ok "") →
      v4_encoder cv ⟨ps, next⟩ = v4_encoder cv ⟨[], next⟩) ∧
    (∀ p ps next, cv p = .ok "" →
      v4_encoder cv ⟨p :: ps, next⟩ = v4_encoder cv ⟨ps, next⟩) ∧
    (∀ p ps data, cv p = .ok "" → data ≠ "" →
      v4_drain cv (p :: ps) data =
        v4_drain cv ps (data ++ String.singleton sep4Char)) := by
  refine ⟨?_, ?_, ?_⟩
  · intro ps next h
    have hdr := v4_drain_all_empty cv ps h
    simp only [v4_encoder, hdr]
    rfl
  · intro p ps next h
    simp only [v4_encoder, v4_drain, h]
    rfl
  · intro p ps data h hd
    simp only [v4_drain, h]
    have hne : ¬ data.isEmpty = true := by
      simp [String.isEmpty_iff, hd]
    rw [if_neg hne]
    congr 1
    apply String.ext
    simp [String.singleton]

/-- Counterexample to the last clause of C10 as stated: in
`[Text "a", Text "", Text "b"]` the middle packet converts to the
empty string, yet the separator before the next packet is still
pushed: the output has two consecutive separators before `b`, the
separator is not omitted. -/
theorem C10_counterexample :
    v4_encoder conv0 ⟨[.Text "a", .Text "", .Text "b"], none⟩ =
      .ok ("a" ++ String.singleton sep4Char ++ String.singleton sep4Char ++ "b") ∧
    ("a" ++ String.singleton sep4Char ++ String.singleton sep4Char ++ "b") ≠
      ("a" ++ String.singleton sep4Char ++ "b") :=
  ⟨rfl, by decide⟩

/-- Witness for C10 (amended) at concrete inputs: an all-empty batch
behaves like the empty queue (and blocks into `Aborted` on the closed
queue), a leading empty conversion drops out of the output, and an
empty conversion after non-empty output appends one separator. -/
theorem C10_witness :
    v4_encoder conv0 ⟨[.Text "", .Text ""], none⟩ = v4_encoder conv0 ⟨[], none⟩ ∧
    v4_encoder conv0 ⟨[.Text "", .Text "z"], none⟩ =
      v4_encoder conv0 ⟨[.Text "z"], none⟩ ∧
    v4_drain conv0 [.Text "", .Text "q"] "w" =
      v4_drain conv0 [.Text "q"] ("w" ++ String.singleton sep4Char) :=
  ⟨(C10_empty_conversion_blocking conv0).1 [.Text "", .Text ""] none
     (by
       intro p hp
       simp at hp
       subst hp
       rfl),
   (C10_empty_conversion_blocking conv0).2.1 (.Text "") [.Text "z"] none rfl,
   (C10_empty_conversion_blocking conv0).2.2 (.Text "") [.Text "q"] "w" rfl
     (by decide)⟩

/-- C1 (amended): for every non-empty batch available at call time all
of whose textual conversions succeed, with the first conversion
non-empty and no conversion containing the separator character, the
modern encoder returns `Ok` with the conversions joined by the single
separator `0x1E` — no separator before the first or after the last —
and splitting the output on the separator yields exactly the
conversions, same number, same order. -/
theorem C1_v4_encoder_join_split (cv : Conv) (ps : List Packet)
    (ts : List String) (next : Option Packet)
    (hne : ps ≠ []) (hm : mapE cv ps = .ok ts)
    (hfirst : ∀ t, ts.head? = some t → t ≠ "")
    (hsep : ∀ t ∈ ts, sep4Char ∉ t.data) :
    v4_encoder cv ⟨ps, next⟩ = .ok (joined ts) ∧
    splitSep sep4Char (joined ts).data = ts.map String.data := by
  have hts : ∃ t ts2, ts = t :: ts2 := by
    cases ps with
    | nil => exact absurd rfl hne
    | cons p ps2 =>
      cases ts with
      | nil =>
        have hl := mapE_ok_length hm
        simp at hl
      | cons t ts2 => exact ⟨t, ts2, rfl⟩
  obtain ⟨t, ts2, rfl⟩ := hts
  have htne : t ≠ "" := hfirst t rfl
  constructor
  · cases ps with
    | nil => exact absurd rfl hne
    | cons p ps2 =>
      simp only [mapE] at hm
      cases hc : cv p with
      | error e => rw [hc] at hm; simp at hm
      | ok s =>
        rw [hc] at hm
        cases hm2 : mapE cv ps2 with
        | error e => rw [hm2] at hm; simp at hm
        | ok ts3 =>
          rw [hm2] at hm
          simp only [Except.ok.injEq, List.cons.injEq] at hm
          obtain ⟨rfl, rfl⟩ := hm
          simp only [v4_encoder, v4_drain, hc]
          rw [show ((if ("" : String).isEmpty then ("" : String)
              else ("" : String).push sep4Char) ++ s) = s from rfl]
          rw [v4_drain_ok cv ps2 ts3 s hm2 htne]
          dsimp only
          have hnem : ¬ (s ++ tailJoined ts3).isEmpty = true := by
            intro hemp
            have hdeq := String.data_eq_of_eq ((String.isEmpty_iff _).mp hemp)
            simp only [String.data_append] at hdeq
            rcases List.append_eq_nil.mp (by simpa using hdeq) with ⟨h1, _⟩
            exact htne (String.ext (by simpa using h1))
          rw [if_neg hnem, joined_eq_tailJoined]
  · exact splitSep_joined (t :: ts2) (by simp) hsep

/-- Counterexample to C1 as stated: (a) a conversion containing the
separator character breaks the splitting clause — the one-packet batch
`[Text s]` with `s` the separator itself yields the payload `s`, which
splits into two segments instead of one; (b) an (initial) empty
conversion breaks the joining clause — `[Text "", Text "a"]` yields
`"a"`, not the conversions joined by one separator. -/
theorem C1_counterexample :
    (v4_encoder conv0 ⟨[.Text (String.singleton sep4Char)], none⟩ =
        .ok (String.singleton sep4Char) ∧
      ([.Text (String.singleton sep4Char)] : List Packet).length = 1 ∧
      (splitSep sep4Char (String.singleton sep4Char).data).length = 2) ∧
    (v4_encoder conv0 ⟨[.Text "", .Text "a"], none⟩ = .ok "a" ∧
      "a" ≠ joined ["", "a"]) :=
  ⟨⟨rfl, rfl, rfl⟩, ⟨rfl, by decide⟩⟩

/-- Witness for C1 (amended) at a concrete input: the two-packet batch
`[Text "hi", Text "yo"]`. -/
theorem C1_witness :
    v4_encoder conv0 ⟨[.Text "hi", .Text "yo"], none⟩ =
      .ok (joined ["hi", "yo"]) ∧
    splitSep sep4Char (joined ["hi", "yo"]).data =
      (["hi", "yo"] : List String).map String.data :=
  C1_v4_encoder_join_split conv0 [.Text "hi", .Text "yo"] ["hi", "yo"] none
    (by simp) rfl
    (by
      intro t ht
      simp at ht
      subst ht
      decide)
    (by decide)
